import Mathlib

/-!
Verification of the ArgOpts command-line option parser (argopts.hxx).

The development shallowly embeds the two core components of the library:

* `StringStore` — the typed value cell: a byte-string payload converted
  on demand to int / double / string, with the error classification done
  by the `OptionErrorHandler` bound at creation time.
* `Parser.parse` — the scanning algorithm over the argument vector.

C++ `std::string` values (which are byte strings) are embedded as
`List Nat`, one entry per byte; `char32_t` code points are embedded as
`Nat`.  C-string sentinel reads such as `argv[i][1] == 0` are embedded
as `List.getD _ 0`, which returns the NUL byte 0 exactly when the read
is past the end of the token.
-/

set_option autoImplicit false

deriving instance DecidableEq for Except

namespace ArgOpts

/-- One `argv` entry: the bytes of a NUL-terminated C string (each a
`Nat` in 0-255), without the terminating NUL. -/
abbrev Token := List Nat

/-- `std::isspace` in the default C locale: space and the five control
whitespace characters 9-13. -/
def isSpaceByte (b : Nat) : Bool :=
  b == 32 || (decide (9 ≤ b) && decide (b ≤ 13))

/-- `std::isdigit`: bytes 48-57. -/
def isDigitByte (b : Nat) : Bool :=
  decide (48 ≤ b) && decide (b ≤ 57)

/-- Decimal value of a digit string (bytes 48-57). -/
def digitsToNat (ds : List Nat) : Nat :=
  ds.foldl (fun a b => a * 10 + (b - 48)) 0

/-- Embedding of `std::stringstream >> int` (decimal, skipws on):
skip leading whitespace, an optional sign, then at least one decimal
digit; the value must fit a 32-bit `int`, otherwise the stream fails
(C++11 `num_get` sets `failbit` on overflow).  Returns the parsed value
(`none` on stream failure) together with the unread remainder. -/
def extractInt (s : List Nat) : Option Int × List Nat :=
  let s1 := s.dropWhile isSpaceByte
  let (neg, s2) :=
    match s1 with
    | 43 :: r => (false, r)
    | 45 :: r => (true, r)
    | _ => (false, s1)
  let ds := s2.takeWhile isDigitByte
  let rest := s2.dropWhile isDigitByte
  if ds = [] then (none, rest)
  else
    let v : Int := if neg then -(digitsToNat ds : Int) else (digitsToNat ds : Int)
    if v < -2147483648 ∨ 2147483647 < v then (none, rest) else (some v, rest)

/-- Largest finite `double`, `(2^53 - 1) * 2^971`, as a rational. -/
def doubleMax : ℚ := ((2 ^ 53 - 1) * 2 ^ 971 : ℚ)

/-- Embedding of `std::stringstream >> double` (skipws on): skip
leading whitespace, an optional sign, decimal digits with an optional
decimal point and fraction, and an optional exponent part.  The
significand must contain at least one digit and an exponent marker must
be followed by at least one digit, otherwise the stream fails; a value
beyond the finite `double` range also fails.  The parsed value is kept
as an exact rational. -/
def extractDouble (s : List Nat) : Option ℚ × List Nat :=
  let s1 := s.dropWhile isSpaceByte
  let (neg, s2) :=
    match s1 with
    | 43 :: r => (false, r)
    | 45 :: r => (true, r)
    | _ => (false, s1)
  let ip := s2.takeWhile isDigitByte
  let s3 := s2.dropWhile isDigitByte
  let (fp, s4) :=
    match s3 with
    | 46 :: r => (r.takeWhile isDigitByte, r.dropWhile isDigitByte)
    | _ => ([], s3)
  let (hasExp, eneg, ed, s5) :=
    match s4 with
    | 101 :: 43 :: r => (true, false, r.takeWhile isDigitByte, r.dropWhile isDigitByte)
    | 101 :: 45 :: r => (true, true, r.takeWhile isDigitByte, r.dropWhile isDigitByte)
    | 101 :: r => (true, false, r.takeWhile isDigitByte, r.dropWhile isDigitByte)
    | 69 :: 43 :: r => (true, false, r.takeWhile isDigitByte, r.dropWhile isDigitByte)
    | 69 :: 45 :: r => (true, true, r.takeWhile isDigitByte, r.dropWhile isDigitByte)
    | 69 :: r => (true, false, r.takeWhile isDigitByte, r.dropWhile isDigitByte)
    | _ => (false, false, [], s4)
  if ip = [] ∧ fp = [] then (none, s5)
  else if hasExp ∧ ed = [] then (none, s5)
  else
    let mant : ℚ := (digitsToNat ip : ℚ) + (digitsToNat fp : ℚ) / ((10 : ℚ) ^ fp.length)
    let ev : Int := if eneg then -(digitsToNat ed : Int) else (digitsToNat ed : Int)
    let q0 : ℚ := mant * (10 : ℚ) ^ ev
    let q : ℚ := if neg then -q0 else q0
    if q < -doubleMax ∨ doubleMax < q then (none, s5) else (some q, s5)

/-- The error condition produced when a conversion fails, as classified
by `OptionErrorHandler::operator()`: an empty stored value raises the
"Missing argument, expected type T" condition, any other failure raises
the "Invalid argument: expected type T but got value" condition.  Both
name the requested type. -/
inductive ConvError where
  | missingValue (typeName : String)
  | invalidValue (raw : List Nat) (typeName : String)
deriving DecidableEq

/-- `StringStore::handleError` together with the bound
`OptionErrorHandler`: classify the failure according to whether the
stored value is empty, and raise it. -/
def handleError (raw : List Nat) (typeName : String) : ConvError :=
  if raw = [] then ConvError.missingValue typeName
  else ConvError.invalidValue raw typeName

/-- `ArgOpts::StringStore`: a value stored as a byte string.  The
user-supplied error handler only shapes the error message, which the
`ConvError` classification captures, so only the stored value is kept. -/
structure StringStore where
  value : List Nat
deriving DecidableEq

/-- The first line of the unread remainder: what
`std::getline(ss, remainder)` yields, i.e. the bytes before the first
newline. -/
def firstLine (s : List Nat) : List Nat :=
  s.takeWhile (fun b => b ≠ 10)

/-- `StringStore::get<int>`: fail on an empty value; extract an `int`
from the stream, failing if the stream fails; then read one line of the
remainder and fail if it contains a non-whitespace byte. -/
def StringStore.getInt (s : StringStore) : Except ConvError Int :=
  if s.value = [] then .error (handleError s.value "int")
  else
    match extractInt s.value with
    | (none, _) => .error (handleError s.value "int")
    | (some t, rem) =>
      if (firstLine rem).any (fun b => !(isSpaceByte b)) then
        .error (handleError s.value "int")
      else .ok t

/-- `StringStore::get<double>`: same algorithm with the double
extractor. -/
def StringStore.getDouble (s : StringStore) : Except ConvError ℚ :=
  if s.value = [] then .error (handleError s.value "double")
  else
    match extractDouble s.value with
    | (none, _) => .error (handleError s.value "double")
    | (some t, rem) =>
      if (firstLine rem).any (fun b => !(isSpaceByte b)) then
        .error (handleError s.value "double")
      else .ok t

/-- The `StringStore::get<std::string>` specialization: fail on an
empty value, otherwise return the stored bytes unchanged. -/
def StringStore.getString (s : StringStore) : Except ConvError (List Nat) :=
  if s.value = [] then .error (handleError s.value "string")
  else .ok s.value

/-- `ArgOpts::Option`: a declared option or a scanned occurrence.
`shortopt` is a `char32_t` code point (0 meaning no short form),
`longopt` and `help` are byte strings, `index` is the position in
`argv` (-1 before scanning) and `arg` is the typed value cell attached
during scanning.  Named `Opt` because `Option` is taken in Lean. -/
structure Opt where
  shortopt : Nat
  longopt : List Nat
  help : List Nat
  index : Int
  arg : StringStore
deriving DecidableEq

/-- The `Option(shortopt, longopt, help, index = -1)` constructor with a
default-constructed (empty, handler-free) `arg`, as used for declared
options. -/
def Opt.make (shortopt : Nat) (longopt : List Nat) (help : List Nat) : Opt :=
  ⟨shortopt, longopt, help, -1, ⟨[]⟩⟩

/-- How the scanner classifies one token of `argv`: skipped, the bare
"--" stop sentinel, a long option carrying the text after "--", or a
short-option bundle carrying the bytes after "-". -/
inductive TokClass where
  | skip
  | stop
  | long (found : List Nat)
  | short (bs : List Nat)
deriving DecidableEq

/-- The token classification chain at the top of `Parser::parse`, in
source order: not starting with a dash, or a lone dash, or a dash
followed by a digit — skip; "--" alone — stop; "--" with text — long
option; otherwise a short-option bundle.  Out-of-range reads of the
C string yield the NUL byte 0. -/
def classify (tok : Token) : TokClass :=
  let b0 := tok.getD 0 0
  let b1 := tok.getD 1 0
  let b2 := tok.getD 2 0
  if b0 ≠ 45 then .skip
  else if b1 = 0 then .skip
  else if isDigitByte b1 then .skip
  else if b1 = 45 then
    if b2 = 0 then .stop else .long (tok.drop 2)
  else .short (tok.drop 1)

/-- A UTF-8 continuation byte, 0x80-0xBF. -/
def isCont (b : Nat) : Bool :=
  decide (128 ≤ b) && decide (b ≤ 191)

/-- The worker of `utf8Decode`.  The continuation bytes are read with
`getD _ 256`; the impossible byte value 256 fails the `isCont` test, so
a truncated multi-byte sequence is malformed.  The fuel argument only
makes the recursion structural; `utf8Decode` supplies the byte count,
which each step (consuming at least one byte per code point) never
exhausts. -/
def utf8DecodeAux : Nat → List Nat → Option (List Nat)
  | _, [] => some []
  | 0, _ :: _ => none
  | fuel + 1, b :: rest =>
    if b < 128 then (utf8DecodeAux fuel rest).map (fun cs => b :: cs)
    else if b < 194 then none
    else if b < 224 then
      if isCont (rest.getD 0 256) then
        (utf8DecodeAux fuel (rest.drop 1)).map
          (fun cs => ((b - 192) * 64 + (rest.getD 0 256 - 128)) :: cs)
      else none
    else if b < 240 then
      if isCont (rest.getD 0 256) && isCont (rest.getD 1 256) then
        if (b - 224) * 4096 + (rest.getD 0 256 - 128) * 64 + (rest.getD 1 256 - 128) < 2048 then
          none
        else if 55296 ≤ (b - 224) * 4096 + (rest.getD 0 256 - 128) * 64 + (rest.getD 1 256 - 128) ∧
            (b - 224) * 4096 + (rest.getD 0 256 - 128) * 64 + (rest.getD 1 256 - 128) ≤ 57343 then
          none
        else
          (utf8DecodeAux fuel (rest.drop 2)).map
            (fun cs => ((b - 224) * 4096 + (rest.getD 0 256 - 128) * 64 + (rest.getD 1 256 - 128)) :: cs)
      else none
    else if b < 245 then
      if isCont (rest.getD 0 256) && isCont (rest.getD 1 256) && isCont (rest.getD 2 256) then
        if (b - 240) * 262144 + (rest.getD 0 256 - 128) * 4096 +
            (rest.getD 1 256 - 128) * 64 + (rest.getD 2 256 - 128) < 65536 then
          none
        else if 1114111 < (b - 240) * 262144 + (rest.getD 0 256 - 128) * 4096 +
            (rest.getD 1 256 - 128) * 64 + (rest.getD 2 256 - 128) then
          none
        else
          (utf8DecodeAux fuel (rest.drop 3)).map
            (fun cs => ((b - 240) * 262144 + (rest.getD 0 256 - 128) * 4096 +
              (rest.getD 1 256 - 128) * 64 + (rest.getD 2 256 - 128)) :: cs)
      else none
    else none

/-- Embedding of
`std::wstring_convert<std::codecvt_utf8<char32_t>, char32_t>::from_bytes`:
strict UTF-8 decoding of a byte string into a list of code points,
`none` on any malformed sequence (where `from_bytes` throws
`std::range_error`). -/
def utf8Decode (bs : List Nat) : Option (List Nat) :=
  utf8DecodeAux bs.length bs

/-- The structural failure of the scan when a short-option token is not
well-formed UTF-8 (the `std::range_error` escaping `from_bytes`). -/
inductive DecodeError where
  | malformed
deriving DecidableEq

/-- The first declared option whose long name equals the scanned text —
the inner loop over `options` with `break` on the first match. -/
def matchLong (opts : List Opt) (found : List Nat) : Option Opt :=
  opts.find? (fun o => o.longopt == found)

/-- The first declared option whose short character equals the scanned
code point. -/
def matchShort (opts : List Opt) (c : Nat) : Option Opt :=
  opts.find? (fun o => o.shortopt == c)

/-- The candidate value for an option at index `i`: the next `argv`
entry when `i != argc - 1`, the empty string otherwise.  `rest` is the
part of `argv` after index `i`. -/
def nextArgValue (rest : List Token) : List Nat :=
  match rest with
  | [] => []
  | v :: _ => v

/-- The occurrence pushed for a long option: a copy of the first
matching declared option with `index` set to `i`, or the synthesized
`{0, found, "", i}`; in both cases `arg` is then assigned the
`StringStore` over the candidate value. -/
def longOcc (opts : List Opt) (found : List Nat) (i : Nat) (av : List Nat) : Opt :=
  match matchLong opts found with
  | some d => { d with index := (i : Int), arg := ⟨av⟩ }
  | none => ⟨0, found, [], (i : Int), ⟨av⟩⟩

/-- The occurrence pushed for one short-option code point: a copy of
the first matching declared option with `index` set to `i`, or the
synthesized `{c, "", "", i}`; `arg` is then assigned the `StringStore`
over the candidate value. -/
def shortOcc (opts : List Opt) (c : Nat) (i : Nat) (av : List Nat) : Opt :=
  match matchShort opts c with
  | some d => { d with index := (i : Int), arg := ⟨av⟩ }
  | none => ⟨c, [], [], (i : Int), ⟨av⟩⟩

/-- The inner loop over the decoded code points of one short-option
bundle: one occurrence per code point, in order, every one carrying its
own copy of the same candidate value. -/
def shortOccs (opts : List Opt) (cps : List Nat) (i : Nat) (av : List Nat) : List Opt :=
  cps.map (fun c => shortOcc opts c i av)

/-- The scanning loop of `Parser::parse` from index `i` on: `toks` is
the part of `argv` from index `i` to the end.  Skipped tokens
contribute nothing, a bare "--" ends the scan, a long token contributes
one occurrence, a short token is UTF-8 decoded (propagating the decode
failure) and contributes one occurrence per code point. -/
def scanFrom (opts : List Opt) (i : Nat) : List Token → Except DecodeError (List Opt)
  | [] => .ok []
  | tok :: rest =>
    match classify tok with
    | .skip => scanFrom opts (i + 1) rest
    | .stop => .ok []
    | .long found =>
      (scanFrom opts (i + 1) rest).map
        (fun l => longOcc opts found i (nextArgValue rest) :: l)
    | .short bs =>
      match utf8Decode bs with
      | none => .error DecodeError.malformed
      | some cps =>
        (scanFrom opts (i + 1) rest).map
          (fun l => shortOccs opts cps i (nextArgValue rest) ++ l)

/-- `ArgOpts::Parser`: the registry of declared options, in declaration
order. -/
structure Parser where
  options : List Opt

/-- `Parser::parse(argc, argv)`: scan the argument vector, skipping
index 0 (the program name).  `argv` is the whole vector including the
program name; `argc = argv.length`. -/
def Parser.parse (p : Parser) (argv : List Token) : Except DecodeError (List Opt) :=
  match argv with
  | [] => .ok []
  | _ :: rest => scanFrom p.options 1 rest

/-! ### Helper lemmas about the scan -/

theorem nextArgValue_eq (rest : List Token) : nextArgValue rest = rest.headD [] := by
  cases rest <;> rfl

theorem longOcc_index (opts : List Opt) (found : List Nat) (i : Nat) (av : List Nat) :
    (longOcc opts found i av).index = (i : Int) := by
  unfold longOcc
  cases matchLong opts found <;> simp

theorem longOcc_arg (opts : List Opt) (found : List Nat) (i : Nat) (av : List Nat) :
    (longOcc opts found i av).arg.value = av := by
  unfold longOcc
  cases matchLong opts found <;> simp

theorem shortOcc_index (opts : List Opt) (c : Nat) (i : Nat) (av : List Nat) :
    (shortOcc opts c i av).index = (i : Int) := by
  unfold shortOcc
  cases matchShort opts c <;> simp

theorem shortOcc_arg (opts : List Opt) (c : Nat) (i : Nat) (av : List Nat) :
    (shortOcc opts c i av).arg.value = av := by
  unfold shortOcc
  cases matchShort opts c <;> simp

theorem shortOccs_mem (opts : List Opt) (cps : List Nat) (i : Nat) (av : List Nat)
    (o : Opt) (h : o ∈ shortOccs opts cps i av) :
    o.index = (i : Int) ∧ o.arg.value = av := by
  simp only [shortOccs, List.mem_map] at h
  obtain ⟨c, -, rfl⟩ := h
  exact ⟨shortOcc_index opts c i av, shortOcc_arg opts c i av⟩

theorem scanFrom_nil (opts : List Opt) (i : Nat) : scanFrom opts i [] = .ok [] := rfl

theorem scanFrom_cons_skip (opts : List Opt) (i : Nat) (tok : Token) (rest : List Token)
    (h : classify tok = .skip) :
    scanFrom opts i (tok :: rest) = scanFrom opts (i + 1) rest := by
  simp [scanFrom, h]

theorem scanFrom_cons_stop (opts : List Opt) (i : Nat) (tok : Token) (rest : List Token)
    (h : classify tok = .stop) :
    scanFrom opts i (tok :: rest) = .ok [] := by
  simp [scanFrom, h]

theorem scanFrom_cons_long (opts : List Opt) (i : Nat) (tok : Token) (rest : List Token)
    (found : List Nat) (h : classify tok = .long found) :
    scanFrom opts i (tok :: rest) =
      (scanFrom opts (i + 1) rest).map
        (fun l => longOcc opts found i (nextArgValue rest) :: l) := by
  simp [scanFrom, h]

theorem scanFrom_cons_short (opts : List Opt) (i : Nat) (tok : Token) (rest : List Token)
    (bs : List Nat) (h : classify tok = .short bs) :
    scanFrom opts i (tok :: rest) =
      match utf8Decode bs with
      | none => .error DecodeError.malformed
      | some cps =>
        (scanFrom opts (i + 1) rest).map
          (fun l => shortOccs opts cps i (nextArgValue rest) ++ l) := by
  simp [scanFrom, h]

/-- Every occurrence in a successful scan starting at index `i` comes
from a non-stop token at some absolute index `j` in range, carries that
`j` as its `index`, and carries as its candidate value exactly the
contents of the following slot (or the empty string at the end). -/
theorem scanFrom_mem_spec (opts : List Opt) (toks : List Token) (i : Nat) (l : List Opt)
    (h : scanFrom opts i toks = .ok l) (o : Opt) (ho : o ∈ l) :
    ∃ (j : Nat) (tok : Token), i ≤ j ∧ j < i + toks.length ∧
      toks[j - i]? = some tok ∧ classify tok ≠ .stop ∧
      o.index = (j : Int) ∧ o.arg.value = (toks.drop (j + 1 - i)).headD [] := by
  induction toks generalizing i l with
  | nil =>
    rw [scanFrom_nil] at h
    cases h
    cases ho
  | cons tok rest ih =>
    cases hc : classify tok with
    | skip =>
      rw [scanFrom_cons_skip opts i tok rest hc] at h
      obtain ⟨j, tk, hij, hlt, hget, hcl, hidx, harg⟩ := ih (i + 1) l h ho
      refine ⟨j, tk, by omega, by simp only [List.length_cons]; omega, ?_, hcl, hidx, ?_⟩
      · have hji : j - i = (j - (i + 1)) + 1 := by omega
        rw [hji, List.getElem?_cons_succ]
        exact hget
      · have hji : j + 1 - i = (j + 1 - (i + 1)) + 1 := by omega
        rw [hji, List.drop_succ_cons]
        exact harg
    | stop =>
      rw [scanFrom_cons_stop opts i tok rest hc] at h
      cases h
      cases ho
    | long found =>
      rw [scanFrom_cons_long opts i tok rest found hc] at h
      cases hrec : scanFrom opts (i + 1) rest with
      | error e => rw [hrec] at h; simp [Except.map] at h
      | ok l' =>
        rw [hrec] at h
        simp only [Except.map] at h
        cases h
        rcases List.mem_cons.mp ho with rfl | ho'
        · refine ⟨i, tok, le_refl i, by simp, ?_, by simp [hc], ?_, ?_⟩
          · simp
          · exact longOcc_index opts found i (nextArgValue rest)
          · rw [longOcc_arg opts found i (nextArgValue rest), nextArgValue_eq]
            have h1 : i + 1 - i = 1 := by omega
            rw [h1, List.drop_one]
            rfl
        · obtain ⟨j, tk, hij, hlt, hget, hcl, hidx, harg⟩ := ih (i + 1) l' hrec ho'
          refine ⟨j, tk, by omega, by simp only [List.length_cons]; omega, ?_, hcl, hidx, ?_⟩
          · have hji : j - i = (j - (i + 1)) + 1 := by omega
            rw [hji, List.getElem?_cons_succ]
            exact hget
          · have hji : j + 1 - i = (j + 1 - (i + 1)) + 1 := by omega
            rw [hji, List.drop_succ_cons]
            exact harg
    | short bs =>
      rw [scanFrom_cons_short opts i tok rest bs hc] at h
      cases hdec : utf8Decode bs with
      | none => rw [hdec] at h; cases h
      | some cps =>
        rw [hdec] at h
        cases hrec : scanFrom opts (i + 1) rest with
        | error e => rw [hrec] at h; simp [Except.map] at h
        | ok l' =>
          rw [hrec] at h
          simp only [Except.map] at h
          cases h
          rcases List.mem_append.mp ho with hos | ho'
          · obtain ⟨hidx, harg⟩ := shortOccs_mem opts cps i (nextArgValue rest) o hos
            refine ⟨i, tok, le_refl i, by simp, by simp, by simp [hc], hidx, ?_⟩
            rw [harg, nextArgValue_eq]
            have h1 : i + 1 - i = 1 := by omega
            rw [h1, List.drop_one]
            rfl
          · obtain ⟨j, tk, hij, hlt, hget, hcl, hidx, harg⟩ := ih (i + 1) l' hrec ho'
            refine ⟨j, tk, by omega, by simp only [List.length_cons]; omega, ?_, hcl, hidx, ?_⟩
            · have hji : j - i = (j - (i + 1)) + 1 := by omega
              rw [hji, List.getElem?_cons_succ]
              exact hget
            · have hji : j + 1 - i = (j + 1 - (i + 1)) + 1 := by omega
              rw [hji, List.drop_succ_cons]
              exact harg

set_option maxRecDepth 16384 in
/-- Every code point produced by the decoder either is an ASCII byte of
the input or is at least 128 (multi-byte sequences never decode below
128 in strict UTF-8). -/
theorem utf8DecodeAux_mem (fuel : Nat) : ∀ (bs : List Nat) (cps : List Nat),
    utf8DecodeAux fuel bs = some cps → ∀ c ∈ cps, c ∈ bs ∨ 128 ≤ c := by
  induction fuel with
  | zero =>
    intro bs cps h c hc
    cases bs with
    | nil => simp only [utf8DecodeAux] at h; cases h; cases hc
    | cons b rest => simp only [utf8DecodeAux] at h; cases h
  | succ fuel ih =>
    intro bs cps h c hc
    cases bs with
    | nil => simp only [utf8DecodeAux] at h; cases h; cases hc
    | cons b rest =>
      simp only [utf8DecodeAux] at h
      by_cases h1 : b < 128
      · rw [if_pos h1] at h
        obtain ⟨cs, hcs, rfl⟩ := Option.map_eq_some'.mp h
        rcases List.mem_cons.mp hc with rfl | hc'
        · left; exact List.mem_cons_self _ _
        · rcases ih rest cs hcs c hc' with hm | hb
          · left; exact List.mem_cons_of_mem _ hm
          · right; exact hb
      · rw [if_neg h1] at h
        by_cases h2 : b < 194
        · rw [if_pos h2] at h; cases h
        · rw [if_neg h2] at h
          by_cases h3 : b < 224
          · rw [if_pos h3] at h
            by_cases h4 : isCont (rest.getD 0 256) = true
            · rw [if_pos h4] at h
              obtain ⟨cs, hcs, rfl⟩ := Option.map_eq_some'.mp h
              rcases List.mem_cons.mp hc with rfl | hc'
              · right; omega
              · rcases ih _ cs hcs c hc' with hm | hb
                · left; exact List.mem_cons_of_mem _ (List.drop_subset _ _ hm)
                · right; exact hb
            · rw [if_neg h4] at h; cases h
          · rw [if_neg h3] at h
            by_cases h5 : b < 240
            · rw [if_pos h5] at h
              by_cases h6 : (isCont (rest.getD 0 256) && isCont (rest.getD 1 256)) = true
              · rw [if_pos h6] at h
                by_cases h7 : (b - 224) * 4096 + (rest.getD 0 256 - 128) * 64 + (rest.getD 1 256 - 128) < 2048
                · rw [if_pos h7] at h; cases h
                · rw [if_neg h7] at h
                  by_cases h8 : 55296 ≤ (b - 224) * 4096 + (rest.getD 0 256 - 128) * 64 + (rest.getD 1 256 - 128) ∧
                      (b - 224) * 4096 + (rest.getD 0 256 - 128) * 64 + (rest.getD 1 256 - 128) ≤ 57343
                  · rw [if_pos h8] at h; cases h
                  · rw [if_neg h8] at h
                    obtain ⟨cs, hcs, rfl⟩ := Option.map_eq_some'.mp h
                    rcases List.mem_cons.mp hc with rfl | hc'
                    · right; omega
                    · rcases ih _ cs hcs c hc' with hm | hb
                      · left; exact List.mem_cons_of_mem _ (List.drop_subset _ _ hm)
                      · right; exact hb
              · rw [if_neg h6] at h; cases h
            · rw [if_neg h5] at h
              by_cases h9 : b < 245
              · rw [if_pos h9] at h
                by_cases h10 : (isCont (rest.getD 0 256) && isCont (rest.getD 1 256) && isCont (rest.getD 2 256)) = true
                · rw [if_pos h10] at h
                  by_cases h11 : (b - 240) * 262144 + (rest.getD 0 256 - 128) * 4096 +
                      (rest.getD 1 256 - 128) * 64 + (rest.getD 2 256 - 128) < 65536
                  · rw [if_pos h11] at h; cases h
                  · rw [if_neg h11] at h
                    by_cases h12 : 1114111 < (b - 240) * 262144 + (rest.getD 0 256 - 128) * 4096 +
                        (rest.getD 1 256 - 128) * 64 + (rest.getD 2 256 - 128)
                    · rw [if_pos h12] at h; cases h
                    · rw [if_neg h12] at h
                      obtain ⟨cs, hcs, rfl⟩ := Option.map_eq_some'.mp h
                      rcases List.mem_cons.mp hc with rfl | hc'
                      · right; omega
                      · rcases ih _ cs hcs c hc' with hm | hb
                        · left; exact List.mem_cons_of_mem _ (List.drop_subset _ _ hm)
                        · right; exact hb
                · rw [if_neg h10] at h; cases h
              · rw [if_neg h9] at h; cases h

/-- The same property for the decoder entry point. -/
theorem utf8Decode_mem (bs : List Nat) (cps : List Nat) (h : utf8Decode bs = some cps) :
    ∀ c ∈ cps, c ∈ bs ∨ 128 ≤ c :=
  utf8DecodeAux_mem bs.length bs cps h


/-- A token whose first byte is the flag marker and whose second byte is
a digit is classified as skipped (the negative-number heuristic). -/
theorem classify_digit_skip (tok : Token) (h0 : tok.getD 0 0 = 45)
    (h1 : isDigitByte (tok.getD 1 0) = true) : classify tok = .skip := by
  have h48 : 48 ≤ tok.getD 1 0 ∧ tok.getD 1 0 ≤ 57 := by
    simp only [isDigitByte, Bool.and_eq_true, decide_eq_true_eq] at h1
    exact h1
  simp only [classify]
  rw [if_neg (by omega), if_neg (by omega), if_pos h1]

/-- A long-classified token has at least three bytes and the scanned
name is everything after the two markers (hence non-empty). -/
theorem classify_long_spec (tok : Token) (found : List Nat)
    (h : classify tok = .long found) : found = tok.drop 2 ∧ 3 ≤ tok.length := by
  simp only [classify] at h
  by_cases c0 : tok.getD 0 0 ≠ 45
  · rw [if_pos c0] at h; cases h
  · rw [if_neg c0] at h
    by_cases c1 : tok.getD 1 0 = 0
    · rw [if_pos c1] at h; cases h
    · rw [if_neg c1] at h
      by_cases c2 : isDigitByte (tok.getD 1 0) = true
      · rw [if_pos c2] at h; cases h
      · rw [if_neg c2] at h
        by_cases c3 : tok.getD 1 0 = 45
        · rw [if_pos c3] at h
          by_cases c4 : tok.getD 2 0 = 0
          · rw [if_pos c4] at h; cases h
          · rw [if_neg c4] at h
            have hlen : 3 ≤ tok.length := by
              by_contra hlen
              push_neg at hlen
              exact c4 (List.getD_eq_default _ _ (by omega))
            cases h
            exact ⟨rfl, hlen⟩
        · rw [if_neg c3] at h; cases h

/-- A short-classified token consists of the flag marker followed by
the bundle bytes. -/
theorem classify_short_spec (tok : Token) (bs : List Nat)
    (h : classify tok = .short bs) : bs = tok.drop 1 := by
  simp only [classify] at h
  by_cases c0 : tok.getD 0 0 ≠ 45
  · rw [if_pos c0] at h; cases h
  · rw [if_neg c0] at h
    by_cases c1 : tok.getD 1 0 = 0
    · rw [if_pos c1] at h; cases h
    · rw [if_neg c1] at h
      by_cases c2 : isDigitByte (tok.getD 1 0) = true
      · rw [if_pos c2] at h; cases h
      · rw [if_neg c2] at h
        by_cases c3 : tok.getD 1 0 = 45
        · rw [if_pos c3] at h
          by_cases c4 : tok.getD 2 0 = 0
          · rw [if_pos c4] at h; cases h
          · rw [if_neg c4] at h; cases h
        · rw [if_neg c3] at h
          cases h
          rfl

/-- The candidate value before a given tail is unchanged when everything
from the first bare "--" on is replaced by just that token. -/
theorem nextArgValue_append_stop (pre suf : List Token) :
    nextArgValue (pre ++ [45, 45] :: suf) = nextArgValue (pre ++ [[45, 45]]) := by
  cases pre <;> rfl

/-- Cutting the argument vector right after the first bare "--" does not
change the scan result: nothing at or after the stop token is examined.  -/
theorem scanFrom_stop_append (opts : List Opt) (pre : List Token) (i : Nat)
    (suf : List Token) :
    scanFrom opts i (pre ++ [45, 45] :: suf) = scanFrom opts i (pre ++ [[45, 45]]) := by
  induction pre generalizing i with
  | nil =>
    rw [List.nil_append, List.nil_append,
      scanFrom_cons_stop opts i _ suf (by decide), scanFrom_cons_stop opts i _ [] (by decide)]
  | cons tok pre ih =>
    rw [List.cons_append, List.cons_append]
    cases hc : classify tok with
    | skip =>
      rw [scanFrom_cons_skip _ _ _ _ hc, scanFrom_cons_skip _ _ _ _ hc, ih]
    | stop =>
      rw [scanFrom_cons_stop _ _ _ _ hc, scanFrom_cons_stop _ _ _ _ hc]
    | long found =>
      rw [scanFrom_cons_long _ _ _ _ _ hc, scanFrom_cons_long _ _ _ _ _ hc, ih]
      simp only [nextArgValue_append_stop]
    | short bs =>
      rw [scanFrom_cons_short _ _ _ _ _ hc, scanFrom_cons_short _ _ _ _ _ hc]
      cases hdec : utf8Decode bs with
      | none => simp [hdec]
      | some cps =>
        simp only [hdec, ih]
        simp only [nextArgValue_append_stop]

/-- The scan succeeds whenever every short-classified token decodes. -/
theorem scanFrom_total (opts : List Opt) (toks : List Token) (i : Nat)
    (hdec : ∀ tok ∈ toks, ∀ bs, classify tok = .short bs → (utf8Decode bs).isSome) :
    ∃ l, scanFrom opts i toks = .ok l := by
  induction toks generalizing i with
  | nil => exact ⟨[], scanFrom_nil opts i⟩
  | cons tok rest ih =>
    have hrest : ∀ t ∈ rest, ∀ bs, classify t = .short bs → (utf8Decode bs).isSome :=
      fun t ht => hdec t (List.mem_cons_of_mem _ ht)
    cases hc : classify tok with
    | skip =>
      obtain ⟨l, hl⟩ := ih (i + 1) hrest
      exact ⟨l, by rw [scanFrom_cons_skip _ _ _ _ hc]; exact hl⟩
    | stop => exact ⟨[], scanFrom_cons_stop _ _ _ _ hc⟩
    | long found =>
      obtain ⟨l, hl⟩ := ih (i + 1) hrest
      refine ⟨longOcc opts found i (nextArgValue rest) :: l, ?_⟩
      rw [scanFrom_cons_long _ _ _ _ _ hc, hl]
      rfl
    | short bs =>
      have hs := hdec tok (List.mem_cons_self _ _) bs hc
      obtain ⟨cps, hcps⟩ := Option.isSome_iff_exists.mp hs
      obtain ⟨l, hl⟩ := ih (i + 1) hrest
      refine ⟨shortOccs opts cps i (nextArgValue rest) ++ l, ?_⟩
      rw [scanFrom_cons_short _ _ _ _ _ hc, hcps, hl]
      rfl


/-- Over a well-formed C argument vector (no NUL bytes inside tokens),
every occurrence a scan produces has a nonzero short character or a
non-empty long name. -/
theorem scanFrom_no_degenerate (opts : List Opt) (toks : List Token) (i : Nat)
    (l : List Opt) (hnul : ∀ tok ∈ toks, (0 : Nat) ∉ tok)
    (h : scanFrom opts i toks = .ok l) :
    ∀ o ∈ l, ¬(o.shortopt = 0 ∧ o.longopt = []) := by
  induction toks generalizing i l with
  | nil =>
    rw [scanFrom_nil] at h
    cases h
    intro o ho
    cases ho
  | cons tok rest ih =>
    have hrest : ∀ t ∈ rest, (0 : Nat) ∉ t := fun t ht => hnul t (List.mem_cons_of_mem _ ht)
    intro o ho
    cases hc : classify tok with
    | skip =>
      rw [scanFrom_cons_skip _ _ _ _ hc] at h
      exact ih (i + 1) l hrest h o ho
    | stop =>
      rw [scanFrom_cons_stop _ _ _ _ hc] at h
      cases h
      cases ho
    | long found =>
      rw [scanFrom_cons_long _ _ _ _ _ hc] at h
      cases hrec : scanFrom opts (i + 1) rest with
      | error e => rw [hrec] at h; simp [Except.map] at h
      | ok l' =>
        rw [hrec] at h
        simp only [Except.map] at h
        cases h
        obtain ⟨hfound, hlen⟩ := classify_long_spec tok found hc
        have hfne : found ≠ [] := by
          subst hfound
          intro hnil
          have := List.drop_eq_nil_iff.mp hnil
          omega
        rcases List.mem_cons.mp ho with rfl | ho'
        · unfold longOcc
          cases hm : matchLong opts found with
          | none =>
            intro hcontra
            exact hfne hcontra.2
          | some d =>
            have hd : d.longopt = found := by
              have := List.find?_some hm
              simpa using this
            intro hcontra
            rw [hd] at hcontra  -- hmm: occurrence longopt is d.longopt
            exact hfne hcontra.2
        · exact ih (i + 1) l' hrest hrec o ho'
    | short bs =>
      rw [scanFrom_cons_short _ _ _ _ _ hc] at h
      cases hdec : utf8Decode bs with
      | none => rw [hdec] at h; cases h
      | some cps =>
        rw [hdec] at h
        cases hrec : scanFrom opts (i + 1) rest with
        | error e => rw [hrec] at h; simp [Except.map] at h
        | ok l' =>
          rw [hrec] at h
          simp only [Except.map] at h
          cases h
          rcases List.mem_append.mp ho with hos | ho'
          · simp only [shortOccs, List.mem_map] at hos
            obtain ⟨c, hcmem, rfl⟩ := hos
            have hbs : bs = tok.drop 1 := classify_short_spec tok bs hc
            have hc0 : c ≠ 0 := by
              rcases utf8Decode_mem bs cps hdec c hcmem with hm | hb
              · intro h0
                subst h0
                exact hnul tok (List.mem_cons_self _ _)
                  (List.drop_subset _ _ (hbs ▸ hm))
              · omega
            unfold shortOcc
            cases hm : matchShort opts c with
            | none =>
              intro hcontra
              exact hc0 hcontra.1
            | some d =>
              have hd : d.shortopt = c := by
                have := List.find?_some hm
                simpa using this
              intro hcontra
              rw [hd] at hcontra
              exact hc0 hcontra.1
          · exact ih (i + 1) l' hrest hrec o ho'


/-- Characterization of a successful int conversion of a non-empty
payload: the stream extraction must succeed and the first line of the
remainder must be whitespace only. -/
theorem getInt_ok_iff (v : List Nat) (hv : v ≠ []) (t : Int) :
    StringStore.getInt ⟨v⟩ = .ok t ↔
      ∃ rem, extractInt v = (some t, rem) ∧ ∀ b ∈ firstLine rem, isSpaceByte b = true := by
  unfold StringStore.getInt
  rw [if_neg hv]
  rcases hext : extractInt v with ⟨o, rem⟩
  cases o with
  | none =>
    simp only [hext]
    constructor
    · intro h; cases h
    · rintro ⟨rem2, hex2, -⟩
      injection hex2 with h1 h2
      cases h1
  | some u =>
    simp only [hext]
    by_cases hany : (firstLine rem).any (fun b => !(isSpaceByte b)) = true
    · rw [if_pos hany]
      constructor
      · intro h; cases h
      · rintro ⟨rem2, hex2, hall⟩
        injection hex2 with h1 h2
        injection h1 with h1
        subst h2
        obtain ⟨b, hb, hbn⟩ := List.any_eq_true.mp hany
        rw [hall b hb] at hbn
        cases hbn
    · rw [if_neg hany]
      constructor
      · intro h
        injection h with h
        subst h
        refine ⟨rem, rfl, fun b hb => ?_⟩
        by_contra hbs
        exact hany (List.any_eq_true.mpr ⟨b, hb, by simp [hbs]⟩)
      · rintro ⟨rem2, hex2, -⟩
        injection hex2 with h1 h2
        injection h1 with h1
        rw [h1]

/-- The same characterization for double conversion. -/
theorem getDouble_ok_iff (v : List Nat) (hv : v ≠ []) (q : ℚ) :
    StringStore.getDouble ⟨v⟩ = .ok q ↔
      ∃ rem, extractDouble v = (some q, rem) ∧ ∀ b ∈ firstLine rem, isSpaceByte b = true := by
  unfold StringStore.getDouble
  rw [if_neg hv]
  rcases hext : extractDouble v with ⟨o, rem⟩
  cases o with
  | none =>
    simp only [hext]
    constructor
    · intro h; cases h
    · rintro ⟨rem2, hex2, -⟩
      injection hex2 with h1 h2
      cases h1
  | some u =>
    simp only [hext]
    by_cases hany : (firstLine rem).any (fun b => !(isSpaceByte b)) = true
    · rw [if_pos hany]
      constructor
      · intro h; cases h
      · rintro ⟨rem2, hex2, hall⟩
        injection hex2 with h1 h2
        injection h1 with h1
        subst h2
        obtain ⟨b, hb, hbn⟩ := List.any_eq_true.mp hany
        rw [hall b hb] at hbn
        cases hbn
    · rw [if_neg hany]
      constructor
      · intro h
        injection h with h
        subst h
        refine ⟨rem, rfl, fun b hb => ?_⟩
        by_contra hbs
        exact hany (List.any_eq_true.mpr ⟨b, hb, by simp [hbs]⟩)
      · rintro ⟨rem2, hex2, -⟩
        injection hex2 with h1 h2
        injection h1 with h1
        rw [h1]

/-- Reading the head of a dropped list is reading at an index. -/
theorem headD_drop {α : Type} (xs : List α) (n : Nat) (d : α) :
    (xs.drop n).headD d = xs.getD n d := by
  induction xs generalizing n with
  | nil => cases n <;> rfl
  | cons x xs ih =>
    cases n with
    | zero => rfl
    | succ n => simp only [List.drop_succ_cons, List.getD_cons_succ]; exact ih n


/-! ### The claims -/

/-- C1: the code at the claimed input.  Scanning the token
`--thing=value` (bytes `45,45,116,104,105,110,103,61,118,97,108,117,101`)
does NOT split at the equals sign: it produces one occurrence whose
long name is the literal text `thing=value` and whose arg cell is empty
(so converting it to a string raises the missing-value condition),
whereas scanning `--thing value` produces the occurrence the claim
describes, with long name `thing` and arg `value`.  This contradicts
the claim (and the repository test `SingleLongArgEquals`). -/
theorem claim1_long_equals_eval :
    (Parser.mk []).parse [[112], [45, 45, 116, 104, 105, 110, 103, 61, 118, 97, 108, 117, 101]] =
      .ok [⟨0, [116, 104, 105, 110, 103, 61, 118, 97, 108, 117, 101], [], 1, ⟨[]⟩⟩] ∧
    (StringStore.mk []).getString = .error (ConvError.missingValue "string") ∧
    (Parser.mk []).parse [[112], [45, 45, 116, 104, 105, 110, 103], [118, 97, 108, 117, 101]] =
      .ok [⟨0, [116, 104, 105, 110, 103], [], 1, ⟨[118, 97, 108, 117, 101]⟩⟩] ∧
    [116, 104, 105, 110, 103, 61, 118, 97, 108, 117, 101] ≠ [116, 104, 105, 110, 103] := by
  decide

/-- C2: the code at the claimed input.  Scanning the token `-a=value`
(bytes `45,97,61,118,97,108,117,101`) treats every character after the
dash as its own short option: it produces seven occurrences
(`a`, `=`, `v`, `a`, `l`, `u`, `e`), each with an empty arg cell — not
one occurrence for `a` whose arg converts to `value`, which is what
scanning the two tokens `-a value` produces.  This contradicts the
claim (and the repository test `SingleShortArgEquals`). -/
theorem claim2_short_equals_eval :
    (Parser.mk []).parse [[112], [45, 97, 61, 118, 97, 108, 117, 101]] =
      .ok [⟨97, [], [], 1, ⟨[]⟩⟩, ⟨61, [], [], 1, ⟨[]⟩⟩, ⟨118, [], [], 1, ⟨[]⟩⟩,
        ⟨97, [], [], 1, ⟨[]⟩⟩, ⟨108, [], [], 1, ⟨[]⟩⟩, ⟨117, [], [], 1, ⟨[]⟩⟩,
        ⟨101, [], [], 1, ⟨[]⟩⟩] ∧
    (Parser.mk []).parse [[112], [45, 97], [118, 97, 108, 117, 101]] =
      .ok [⟨97, [], [], 1, ⟨[118, 97, 108, 117, 101]⟩⟩] := by
  decide

/-- C3 counterexample: the scan is not total.  On the argument vector
`{"p", "-\xFF"}` — whose short-option token holds the byte 255, which
is not well-formed UTF-8 — the scan raises the decoding error instead
of returning an occurrence sequence. -/
theorem claim3_counterexample :
    (Parser.mk []).parse [[112], [45, 255]] = .error DecodeError.malformed := by
  decide

/-- C3 (amended): the scan returns normally for every argument vector
whose short-option tokens are well-formed UTF-8 after the marker; only
a malformed short-option token makes it raise (a structural decoding
error), and all other failures are deferred to later arg conversion. -/
theorem claim3_scan_total_on_utf8 (p : Parser) (argv : List Token)
    (hdec : ∀ tok ∈ argv, ∀ bs, classify tok = .short bs → (utf8Decode bs).isSome) :
    ∃ l, p.parse argv = .ok l := by
  cases argv with
  | nil => exact ⟨[], rfl⟩
  | cons prog rest =>
    exact scanFrom_total p.options rest 1
      (fun t ht => hdec t (List.mem_cons_of_mem _ ht))

/-- C3 witness: the amended theorem applied to `{"p", "-a"}`. -/
theorem claim3_scan_total_on_utf8_witness :
    ∃ l, (Parser.mk []).parse [[112], [45, 97]] = .ok l :=
  claim3_scan_total_on_utf8 (Parser.mk []) [[112], [45, 97]] (by
    intro tok ht bs hbs
    rcases List.mem_cons.mp ht with rfl | ht'
    · rw [(by decide : classify [112] = TokClass.skip)] at hbs
      cases hbs
    · rcases List.mem_cons.mp ht' with rfl | ht''
      · rw [(by decide : classify [45, 97] = TokClass.short [97])] at hbs
        injection hbs with hbs'
        rw [← hbs']
        decide
      · cases ht'')

/-- C4 counterexample: trailing non-whitespace content does not always
make a conversion fail.  For the payload `"3\nx"` (bytes `51,10,120`)
the int extraction consumes `3` and leaves the remainder `"\nx"`,
which contains the non-whitespace byte `x`; the claim says this
conversion fails, but `get<int>` checks only the first
`std::getline` line of the remainder (empty here) and succeeds with 3. -/
theorem claim4_counterexample :
    extractInt [51, 10, 120] = (some 3, [10, 120]) ∧
    ([10, 120].any (fun b => !(isSpaceByte b))) = true ∧
    StringStore.getInt ⟨[51, 10, 120]⟩ = .ok 3 := by
  decide

/-- C4 (amended): for every non-empty payload, string conversion
returns the payload unchanged, and int/double conversion succeeds
exactly when the stream extraction for that type succeeds and every
byte of the remainder up to the first newline is whitespace (bytes
after the first newline are never examined).  In particular `"3.1415"`
to int fails with the invalid-value condition, `"42"` to int yields 42
and `"42"` to string yields `"42"`. -/
theorem claim4_conversion_characterization :
    (∀ v : List Nat, v ≠ [] →
      StringStore.getString ⟨v⟩ = .ok v ∧
      (∀ t : Int, StringStore.getInt ⟨v⟩ = .ok t ↔
        ∃ rem, extractInt v = (some t, rem) ∧ ∀ b ∈ firstLine rem, isSpaceByte b = true) ∧
      (∀ q : ℚ, StringStore.getDouble ⟨v⟩ = .ok q ↔
        ∃ rem, extractDouble v = (some q, rem) ∧ ∀ b ∈ firstLine rem, isSpaceByte b = true)) ∧
    StringStore.getInt ⟨[51, 46, 49, 52, 49, 53]⟩ =
      .error (ConvError.invalidValue [51, 46, 49, 52, 49, 53] "int") ∧
    StringStore.getInt ⟨[52, 50]⟩ = .ok 42 ∧
    StringStore.getString ⟨[52, 50]⟩ = .ok [52, 50] := by
  refine ⟨?_, by decide, by decide, by decide⟩
  intro v hv
  refine ⟨?_, fun t => getInt_ok_iff v hv t, fun q => getDouble_ok_iff v hv q⟩
  unfold StringStore.getString
  rw [if_neg hv]

/-- C4 witness: the universally quantified part applied to the payload
`"42"`. -/
theorem claim4_conversion_characterization_witness :
    StringStore.getString ⟨[52, 50]⟩ = .ok [52, 50] ∧
    (∀ t : Int, StringStore.getInt ⟨[52, 50]⟩ = .ok t ↔
      ∃ rem, extractInt [52, 50] = (some t, rem) ∧ ∀ b ∈ firstLine rem, isSpaceByte b = true) ∧
    (∀ q : ℚ, StringStore.getDouble ⟨[52, 50]⟩ = .ok q ↔
      ∃ rem, extractDouble [52, 50] = (some q, rem) ∧ ∀ b ∈ firstLine rem, isSpaceByte b = true) :=
  claim4_conversion_characterization.1 [52, 50] (by decide)

/-- C5: converting an empty (absent) value cell fails with the
missing-value condition naming the requested type, for int, double and
string alike; no conversion of an empty cell succeeds. -/
theorem claim5_empty_always_fails (s : StringStore) (h : s.value = []) :
    s.getInt = .error (ConvError.missingValue "int") ∧
    s.getDouble = .error (ConvError.missingValue "double") ∧
    s.getString = .error (ConvError.missingValue "string") := by
  obtain ⟨v⟩ := s
  simp only at h
  subst h
  decide

/-- C5 witness: the theorem applied to the empty cell. -/
theorem claim5_empty_always_fails_witness :
    (StringStore.mk []).getInt = .error (ConvError.missingValue "int") ∧
    (StringStore.mk []).getDouble = .error (ConvError.missingValue "double") ∧
    (StringStore.mk []).getString = .error (ConvError.missingValue "string") :=
  claim5_empty_always_fails ⟨[]⟩ rfl

/-- C6: a short-option token contributes exactly one occurrence per
decoded Unicode code point (not per byte), in code-point order, all
sharing the token index and each holding its own copy of the same
next-slot value; concretely, the token of the three CJK characters
大家好 after one dash (nine bytes) yields exactly three occurrences. -/
theorem claim6_one_occurrence_per_codepoint :
    (∀ (opts : List Opt) (i : Nat) (tok : Token) (rest : List Token)
        (bs cps : List Nat), classify tok = .short bs → utf8Decode bs = some cps →
      scanFrom opts i (tok :: rest) =
        (scanFrom opts (i + 1) rest).map
          (fun l => shortOccs opts cps i (nextArgValue rest) ++ l) ∧
      (shortOccs opts cps i (nextArgValue rest)).length = cps.length ∧
      ∀ o ∈ shortOccs opts cps i (nextArgValue rest),
        o.index = (i : Int) ∧ o.arg.value = nextArgValue rest) ∧
    (Parser.mk []).parse [[112], [45, 229, 164, 167, 229, 174, 182, 229, 165, 189]] =
      .ok [⟨22823, [], [], 1, ⟨[]⟩⟩, ⟨23478, [], [], 1, ⟨[]⟩⟩, ⟨22909, [], [], 1, ⟨[]⟩⟩] ∧
    ([45, 229, 164, 167, 229, 174, 182, 229, 165, 189] : Token).length = 10 := by
  refine ⟨?_, by decide, by decide⟩
  intro opts i tok rest bs cps hcls hdec
  refine ⟨?_, ?_, fun o ho => shortOccs_mem opts cps i (nextArgValue rest) o ho⟩
  · rw [scanFrom_cons_short opts i tok rest bs hcls, hdec]
  · simp [shortOccs]

/-- C6 witness: the quantified part applied to the token `-a`. -/
theorem claim6_one_occurrence_per_codepoint_witness :
    scanFrom [] 1 [[45, 97]] =
      (scanFrom [] 2 []).map (fun l => shortOccs [] [97] 1 (nextArgValue []) ++ l) :=
  (claim6_one_occurrence_per_codepoint.1 [] 1 [45, 97] [] [97] [97]
    (by decide) (by decide)).1

/-- C7: the negative-number heuristic looks only at the byte directly
after the dash: any token whose first byte is `-` and whose second byte
is a digit is skipped entirely, contributing nothing to the scan, while
`-a9` (digit in a later position) decodes as the two short options `a`
and `9`.  Concretely `-9foo` produces no occurrence. -/
theorem claim7_digit_heuristic :
    (∀ (opts : List Opt) (i : Nat) (rest : List Token) (tok : Token),
      tok.getD 0 0 = 45 → isDigitByte (tok.getD 1 0) = true →
      scanFrom opts i (tok :: rest) = scanFrom opts (i + 1) rest) ∧
    (Parser.mk []).parse [[112], [45, 57, 102, 111, 111]] = .ok [] ∧
    (Parser.mk []).parse [[112], [45, 97, 57]] =
      .ok [⟨97, [], [], 1, ⟨[]⟩⟩, ⟨57, [], [], 1, ⟨[]⟩⟩] := by
  refine ⟨?_, by decide, by decide⟩
  intro opts i rest tok h0 h1
  exact scanFrom_cons_skip opts i tok rest (classify_digit_skip tok h0 h1)

/-- C7 witness: the quantified part applied to the token `-9`. -/
theorem claim7_digit_heuristic_witness :
    scanFrom [] 1 [[45, 57]] = scanFrom [] 2 [] :=
  claim7_digit_heuristic.1 [] 1 [] [45, 57] (by decide) (by decide)

/-- C8: scanning stops at the first bare `--` token: the result does
not depend on anything from that token on (no later token is examined),
and every returned occurrence has an argv index strictly below the
index of the `--` token. -/
theorem claim8_stops_at_dashdash (p : Parser) (prog : Token) (pre suf : List Token) :
    p.parse (prog :: (pre ++ [45, 45] :: suf)) = p.parse (prog :: (pre ++ [[45, 45]])) ∧
    ∀ l, p.parse (prog :: (pre ++ [45, 45] :: suf)) = .ok l →
      ∀ o ∈ l, o.index < (pre.length : Int) + 1 := by
  constructor
  · exact scanFrom_stop_append p.options pre 1 suf
  · intro l hl o ho
    have hl2 : scanFrom p.options 1 (pre ++ [[45, 45]]) = .ok l := by
      rw [← scanFrom_stop_append p.options pre 1 suf]
      exact hl
    obtain ⟨j, tok, h1j, hjlt, hget, hcl, hidx, -⟩ :=
      scanFrom_mem_spec p.options (pre ++ [[45, 45]]) 1 l hl2 o ho
    have hjpre : j - 1 < pre.length := by
      by_contra hge
      push_neg at hge
      have hj1 : j - 1 = pre.length := by
        simp only [List.length_append, List.length_cons, List.length_nil] at hjlt
        omega
      rw [hj1] at hget
      rw [List.getElem?_append_right (le_refl pre.length)] at hget
      simp only [Nat.sub_self] at hget
      have htok : tok = [45, 45] := by
        injection hget with hget'
        exact hget'.symm
      subst htok
      exact hcl (by decide)
    rw [hidx]
    have : j ≤ pre.length := by omega
    omega

/-- C8 witness: the theorem applied to `{"p", "-a", "--", "-b"}`; the
result equals the scan of `{"p", "-a", "--"}` and the single
occurrence (for `-a`, at index 1) sits before the `--` at index 2. -/
theorem claim8_stops_at_dashdash_witness :
    ((Parser.mk []).parse [[112], [45, 97], [45, 45], [45, 98]] =
      (Parser.mk []).parse [[112], [45, 97], [45, 45]]) ∧
    (Opt.mk 97 [] [] 1 ⟨[45, 45]⟩).index < (1 : Int) + 1 := by
  have h := claim8_stops_at_dashdash (Parser.mk []) [112] [[45, 97]] [[45, 98]]
  exact ⟨h.1, h.2 [Opt.mk 97 [] [] 1 ⟨[45, 45]⟩] (by decide) _ (by decide)⟩

/-- C9: value attachment is purely positional: every occurrence carries
the argv index `j` of its flag token, and its arg cell holds exactly
the byte-for-byte contents of slot `j+1` of the argument vector when
that slot exists — regardless of what those bytes are — and the empty
(absent) payload when the flag token is the last entry. -/
theorem claim9_positional_attachment (p : Parser) (argv : List Token) (l : List Opt)
    (h : p.parse argv = .ok l) (o : Opt) (ho : o ∈ l) :
    ∃ j : Nat, o.index = (j : Int) ∧ 1 ≤ j ∧ j < argv.length ∧
      o.arg.value = argv.getD (j + 1) [] ∧
      (j + 1 = argv.length → o.arg.value = []) := by
  cases argv with
  | nil =>
    cases h
    cases ho
  | cons prog rest =>
    have hs : scanFrom p.options 1 rest = .ok l := h
    obtain ⟨j, tok, h1j, hjlt, -, -, hidx, harg⟩ :=
      scanFrom_mem_spec p.options rest 1 l hs o ho
    have hj1 : j + 1 - 1 = j := by omega
    rw [hj1] at harg
    have hval : o.arg.value = (prog :: rest).getD (j + 1) [] := by
      rw [harg, headD_drop, List.getD_cons_succ]
    refine ⟨j, hidx, h1j, by simp only [List.length_cons]; omega, hval, ?_⟩
    intro hlast
    rw [hval]
    have : (prog :: rest).length ≤ j + 1 := by omega
    exact List.getD_eq_default _ _ this

/-- C9 witness: the theorem applied to `{"p", "-a", "v"}` and its one
occurrence. -/
theorem claim9_positional_attachment_witness :
    ∃ j : Nat, (Opt.mk 97 [] [] 1 ⟨[118]⟩).index = (j : Int) ∧ 1 ≤ j ∧ j < 3 ∧
      (Opt.mk 97 [] [] 1 ⟨[118]⟩).arg.value = ([[112], [45, 97], [118]] : List Token).getD (j + 1) [] ∧
      (j + 1 = 3 → (Opt.mk 97 [] [] 1 ⟨[118]⟩).arg.value = []) :=
  claim9_positional_attachment (Parser.mk []) [[112], [45, 97], [118]]
    [Opt.mk 97 [] [] 1 ⟨[118]⟩] (by decide) _ (by decide)

/-- C10: over any registry and any well-formed C argument vector (no
NUL byte inside a token), every occurrence the scan returns has a
nonzero short character or a non-empty long name — never both absent. -/
theorem claim10_never_both_absent (p : Parser) (argv : List Token) (l : List Opt)
    (hnul : ∀ tok ∈ argv, (0 : Nat) ∉ tok) (h : p.parse argv = .ok l) :
    ∀ o ∈ l, ¬(o.shortopt = 0 ∧ o.longopt = []) := by
  cases argv with
  | nil =>
    cases h
    intro o ho
    cases ho
  | cons prog rest =>
    exact scanFrom_no_degenerate p.options rest 1 l
      (fun t ht => hnul t (List.mem_cons_of_mem _ ht)) h

/-- C10 witness: the theorem applied to `{"p", "-a"}` and the
occurrence it returns. -/
theorem claim10_never_both_absent_witness :
    ¬((Opt.mk 97 [] [] 1 ⟨[]⟩).shortopt = 0 ∧ (Opt.mk 97 [] [] 1 ⟨[]⟩).longopt = []) :=
  claim10_never_both_absent (Parser.mk []) [[112], [45, 97]]
    [Opt.mk 97 [] [] 1 ⟨[]⟩] (by decide) (by decide) _ (by decide)

end ArgOpts
